import Mathlib

/-!
# Verification of the IOManager timer subsystem (`src/include/iomgr_timer.hpp`)

Shallow embedding of the timer data model from `iomgr_timer.hpp` together with a
model of the `timer_epoll` scheduler whose method bodies are not part of the
repository snapshot (only their declarations appear in the header); those
operations are modelled from the specification, as noted on each definition.

Conventions: `std::chrono::steady_clock::time_point` and nanosecond counts are
embedded as `Nat` (monotonic nanoseconds); opaque pointers (`void*` cookies,
callback objects, `timer*` back pointers) are embedded as `Nat` identifiers;
`std::shared_ptr<io_device_t>` is embedded as `Option Nat` (a possibly-null
reference to a descriptor identified by a number).
-/

namespace Iomgr

/-- Embeds `struct timer_info` (iomgr_timer.hpp lines 17-31): absolute expiry
time, callback, opaque context and owning-scheduler back reference. -/
structure timer_info where
  expiry_time : Nat
  cb : Nat
  context : Nat
  parent_timer : Nat
deriving DecidableEq, Repr

/-- Embeds the two-argument `timer_info` constructor (lines 25-30):
`expiry_time = steady_clock::now() + nanoseconds(nanos_after)`, with the
call-time clock value passed explicitly as `now`. -/
def timer_info.make (nanos_after : Nat) (now : Nat) (cookie : Nat)
    (timer_fn : Nat) (t : Nat) : timer_info :=
  { expiry_time := now + nanos_after
    cb := timer_fn
    context := cookie
    parent_timer := t }

/-- Embeds `struct compare_timer` (lines 33-35): `ti1.expiry_time > ti2.expiry_time`. -/
def compare_timer (ti1 ti2 : timer_info) : Bool :=
  decide (ti1.expiry_time > ti2.expiry_time)

/-- Reference ordering stated by the specification for the comparator: the
first argument's expiry time is strictly greater than the second's. -/
def expiry_greater (ti1 ti2 : timer_info) : Prop :=
  ti1.expiry_time > ti2.expiry_time

/-- Embeds `timer_handle_t = std::variant<timer_heap_t::handle_type,
std::shared_ptr<io_device_t>>` (line 39). A heap handle is the identifier of a
queue entry; a descriptor handle is a possibly-null descriptor reference. -/
inductive timer_handle_t where
  | heap_hdl : Nat → timer_handle_t
  | iodev_hdl : Option Nat → timer_handle_t
deriving DecidableEq, Repr

/-- Embeds `null_timer_handle` (line 40): the descriptor variant holding a null
pointer. -/
def null_timer_handle : timer_handle_t := timer_handle_t.iodev_hdl none

/-- An entry of the Deadline Queue: the `timer_info` value together with the
identity of the heap node holding it (`timer_heap_t::handle_type` identity). -/
abbrev heap_entry := Nat × timer_info

/-- Expiry time of a queue entry. -/
def entry_expiry (e : heap_entry) : Nat := e.2.expiry_time

/-- Minimum expiry time over a list of queue entries (`0` on the empty list,
which is never consulted there). -/
def min_expiry : List heap_entry → Nat
  | [] => 0
  | [e] => entry_expiry e
  | e :: e2 :: es => Nat.min (entry_expiry e) (min_expiry (e2 :: es))

/-- Extracts a heap-top element: the first entry of least expiry under the
source ordering `compare_timer`, together with the remaining entries in their
original relative order. Returns `none` on the empty queue. -/
def select_min : List heap_entry → Option (heap_entry × List heap_entry)
  | [] => none
  | x :: xs =>
    match select_min xs with
    | none => some (x, [])
    | some (m, rest) =>
      if compare_timer x.2 m.2 then some (m, x :: rest) else some (x, xs)

/-- Fuelled pop-while-due loop over the Deadline Queue: repeatedly extract the
minimum while its expiry is at most `now`. -/
def pop_go : Nat → Nat → List heap_entry → List heap_entry × List heap_entry
  | 0, _, l => ([], l)
  | fuel + 1, now, l =>
    match select_min l with
    | none => ([], l)
    | some (m, rest) =>
      if entry_expiry m ≤ now then
        let p := pop_go fuel now rest
        (m :: p.1, p.2)
      else ([], l)

/-- Modelled from the spec: `pop_all_due(now)` of the Deadline Queue (the
`timer_epoll` implementation file is absent from the snapshot). Removes and
returns the due entries by repeated minimum extraction under the source
ordering `compare_timer`; the pair is (due entries in pop order, remaining
queue). -/
def pop_all_due (now : Nat) (l : List heap_entry) : List heap_entry × List heap_entry :=
  pop_go l.length now l

theorem min_expiry_le {l : List heap_entry} {e : heap_entry} (he : e ∈ l) :
    min_expiry l ≤ entry_expiry e := by
  induction l with
  | nil => cases he
  | cons x xs ih =>
    cases xs with
    | nil =>
      have hex : e = x := by simpa using he
      subst hex
      simp [min_expiry]
    | cons y ys =>
      rcases List.mem_cons.1 he with h | h
      · subst h; exact Nat.min_le_left _ _
      · exact Nat.le_trans (Nat.min_le_right _ _) (ih h)

theorem select_min_eq_none {l : List heap_entry} :
    select_min l = none ↔ l = [] := by
  cases l with
  | nil => simp [select_min]
  | cons x xs =>
    simp only [select_min]
    cases h : select_min xs with
    | none => simp
    | some p =>
      obtain ⟨m, rest⟩ := p
      by_cases hc : compare_timer x.2 m.2 <;> simp [hc]

/-- Decomposition: `select_min` removes exactly one occurrence, preserving the
relative order of the remaining entries. -/
theorem select_min_decomp {l : List heap_entry} {m : heap_entry}
    {rest : List heap_entry} (h : select_min l = some (m, rest)) :
    ∃ l₁ l₂, l = l₁ ++ m :: l₂ ∧ rest = l₁ ++ l₂ := by
  induction l generalizing m rest with
  | nil => simp [select_min] at h
  | cons x xs ih =>
    simp only [select_min] at h
    cases hx : select_min xs with
    | none =>
      rw [hx] at h
      have hxs : xs = [] := select_min_eq_none.1 hx
      cases h
      exact ⟨[], [], by simp [hxs], by simp⟩
    | some p =>
      obtain ⟨m', rest'⟩ := p
      rw [hx] at h
      by_cases hc : compare_timer x.2 m'.2
      · simp only [hc, if_true] at h
        cases h
        obtain ⟨l₁, l₂, hl, hr⟩ := ih hx
        exact ⟨x :: l₁, l₂, by simp [hl], by simp [hr]⟩
      · simp only [hc, if_neg, Bool.false_eq_true, not_false_iff, if_false] at h
        cases h
        exact ⟨[], xs, rfl, rfl⟩

/-- The selected entry is minimal (w.r.t. expiry) among all entries. -/
theorem select_min_minimal {l : List heap_entry} {m : heap_entry}
    {rest : List heap_entry} (h : select_min l = some (m, rest)) :
    ∀ x ∈ l, entry_expiry m ≤ entry_expiry x := by
  induction l generalizing m rest with
  | nil => simp [select_min] at h
  | cons x xs ih =>
    simp only [select_min] at h
    cases hx : select_min xs with
    | none =>
      rw [hx] at h
      have hxs : xs = [] := select_min_eq_none.1 hx
      cases h
      intro y hy
      rcases List.mem_cons.1 hy with h' | h'
      · subst h'; exact Nat.le_refl _
      · rw [hxs] at h'; cases h'
    | some p =>
      obtain ⟨m', rest'⟩ := p
      rw [hx] at h
      by_cases hc : compare_timer x.2 m'.2
      · simp only [hc, if_true, Option.some.injEq, Prod.mk.injEq] at h
        obtain ⟨hm, hr⟩ := h
        intro y hy
        rw [← hm]
        rcases List.mem_cons.1 hy with h' | h'
        · rw [h']
          have hlt : m'.2.expiry_time < x.2.expiry_time := by
            simpa [compare_timer] using hc
          exact Nat.le_of_lt hlt
        · exact ih hx y h'
      · have hcf : compare_timer x.2 m'.2 = false := by
          simpa using hc
        simp only [hcf, Bool.false_eq_true, if_false, Option.some.injEq,
          Prod.mk.injEq] at h
        obtain ⟨hm, hr⟩ := h
        have hxm : ¬ x.2.expiry_time > m'.2.expiry_time := by
          simpa [compare_timer] using hcf
        intro y hy
        rw [← hm]
        rcases List.mem_cons.1 hy with h' | h'
        · rw [h']
        · exact Nat.le_trans (Nat.le_of_not_lt hxm) (ih hx y h')

theorem select_min_perm {l : List heap_entry} {m : heap_entry}
    {rest : List heap_entry} (h : select_min l = some (m, rest)) :
    l.Perm (m :: rest) := by
  obtain ⟨l₁, l₂, hl, hr⟩ := select_min_decomp h
  rw [hl, hr]
  exact List.perm_middle

theorem select_min_length {l : List heap_entry} {m : heap_entry}
    {rest : List heap_entry} (h : select_min l = some (m, rest)) :
    rest.length + 1 = l.length := by
  obtain ⟨l₁, l₂, hl, hr⟩ := select_min_decomp h
  subst hl; subst hr
  simp [Nat.add_comm, Nat.add_left_comm, Nat.add_assoc]

/-- `pop_go` with enough fuel: the popped entries are exactly the due ones (as
a permutation of the due filter), the remaining queue is exactly the not-due
entries in their original order, and the popped list ascends by expiry. -/
theorem pop_go_spec (now : Nat) : ∀ (fuel : Nat) (l : List heap_entry),
    l.length ≤ fuel →
    (pop_go fuel now l).1.Perm (l.filter fun e => decide (entry_expiry e ≤ now)) ∧
    (pop_go fuel now l).2 = l.filter (fun e => decide (now < entry_expiry e)) ∧
    (pop_go fuel now l).1.Pairwise (fun a b => entry_expiry a ≤ entry_expiry b) := by
  intro fuel
  induction fuel with
  | zero =>
    intro l hl
    have hnil : l = [] := List.length_eq_zero.1 (Nat.le_zero.1 hl)
    subst hnil
    simp [pop_go]
  | succ fuel ih =>
    intro l hlen
    cases hs : select_min l with
    | none =>
      have hnil : l = [] := select_min_eq_none.1 hs
      subst hnil
      simp [pop_go, select_min]
    | some p =>
      obtain ⟨m, rest⟩ := p
      obtain ⟨A, B, hdec, hrest⟩ := select_min_decomp hs
      have hmin := select_min_minimal hs
      by_cases hd : entry_expiry m ≤ now
      · have hres : pop_go (fuel + 1) now l =
            ((pop_go fuel now rest).1.cons m, (pop_go fuel now rest).2) := by
          simp [pop_go, hs, hd]
        have hrl : rest.length ≤ fuel := by
          have := select_min_length hs
          omega
        obtain ⟨ih1, ih2, ih3⟩ := ih rest hrl
        have hmem_rest : ∀ y ∈ (pop_go fuel now rest).1, y ∈ l := by
          intro y hy
          have hyf := ih1.mem_iff.1 hy
          have hyr : y ∈ rest := List.mem_of_mem_filter hyf
          rw [hrest] at hyr
          rw [hdec]
          rcases List.mem_append.1 hyr with h' | h'
          · exact List.mem_append.2 (Or.inl h')
          · exact List.mem_append.2 (Or.inr (List.mem_cons_of_mem m h'))
        refine ⟨?_, ?_, ?_⟩
        · rw [hres]
          have hfl : l.filter (fun e => decide (entry_expiry e ≤ now)) =
              A.filter (fun e => decide (entry_expiry e ≤ now)) ++
                m :: B.filter (fun e => decide (entry_expiry e ≤ now)) := by
            rw [hdec, List.filter_append]
            simp [List.filter_cons, hd]
          rw [hfl]
          have hrf : rest.filter (fun e => decide (entry_expiry e ≤ now)) =
              A.filter (fun e => decide (entry_expiry e ≤ now)) ++
                B.filter (fun e => decide (entry_expiry e ≤ now)) := by
            rw [hrest, List.filter_append]
          have step1 := List.Perm.cons m ih1
          rw [hrf] at step1
          exact step1.trans List.perm_middle.symm
        · rw [hres]
          have hfl : l.filter (fun e => decide (now < entry_expiry e)) =
              A.filter (fun e => decide (now < entry_expiry e)) ++
                B.filter (fun e => decide (now < entry_expiry e)) := by
            rw [hdec, List.filter_append]
            have hmf : (m :: B).filter (fun e => decide (now < entry_expiry e)) =
                B.filter (fun e => decide (now < entry_expiry e)) := by
              simp [List.filter_cons, Nat.not_lt.2 hd]
            rw [hmf]
          rw [hfl, ih2, hrest, List.filter_append]
        · rw [hres]
          refine List.pairwise_cons.2 ⟨?_, ih3⟩
          intro y hy
          exact hmin y (hmem_rest y hy)
      · have hres : pop_go (fuel + 1) now l = ([], l) := by
          simp [pop_go, hs, hd]
        refine ⟨?_, ?_, ?_⟩
        · rw [hres]
          have : l.filter (fun e => decide (entry_expiry e ≤ now)) = [] := by
            refine List.filter_eq_nil_iff.2 ?_
            intro e he
            have := hmin e he
            simp only [decide_eq_true_eq]
            omega
          rw [this]
        · rw [hres]
          have : l.filter (fun e => decide (now < entry_expiry e)) = l := by
            refine List.filter_eq_self.2 ?_
            intro e he
            have := hmin e he
            simp only [decide_eq_true_eq]
            omega
          rw [this]
        · rw [hres]
          exact List.Pairwise.nil

/-- `pop_all_due` correctness: due entries out (a permutation of the due
filter), not-due entries kept in order, output ascending by expiry. -/
theorem pop_all_due_spec (now : Nat) (l : List heap_entry) :
    (pop_all_due now l).1.Perm (l.filter fun e => decide (entry_expiry e ≤ now)) ∧
    (pop_all_due now l).2 = l.filter (fun e => decide (now < entry_expiry e)) ∧
    (pop_all_due now l).1.Pairwise (fun a b => entry_expiry a ≤ entry_expiry b) :=
  pop_go_spec now l.length l (Nat.le_refl _)

theorem pop_all_due_subset {now : Nat} {l : List heap_entry} :
    ∀ y ∈ (pop_all_due now l).1, y ∈ l := by
  intro y hy
  have h := (pop_all_due_spec now l).1
  exact List.mem_of_mem_filter (h.mem_iff.1 hy)

/-- Admissible pop orders of the Deadline Queue. The source orders the queue
solely through `compare_timer` (iomgr_timer.hpp line 34), which compares only
expiry times, and declares `timer_heap_t` (line 38) as a
`boost::heap::binomial_heap` without the library's stability option, so among
entries of equal expiry the heap order is unspecified: a pop step may remove
any due entry that is minimal by expiry. -/
inductive pop_due_order (now : Nat) : List heap_entry → List heap_entry → Prop
  | nil : ∀ {l : List heap_entry},
      (∀ e ∈ l, ¬ entry_expiry e ≤ now) → pop_due_order now l []
  | cons : ∀ (l₁ l₂ : List heap_entry) (e : heap_entry) {out : List heap_entry},
      entry_expiry e ≤ now →
      (∀ x ∈ l₁ ++ e :: l₂, entry_expiry e ≤ entry_expiry x) →
      pop_due_order now (l₁ ++ l₂) out →
      pop_due_order now (l₁ ++ e :: l₂) (e :: out)

theorem pop_go_order (now : Nat) : ∀ (fuel : Nat) (l : List heap_entry),
    l.length ≤ fuel → pop_due_order now l (pop_go fuel now l).1 := by
  intro fuel
  induction fuel with
  | zero =>
    intro l hl
    have hnil : l = [] := List.length_eq_zero.1 (Nat.le_zero.1 hl)
    subst hnil
    exact pop_due_order.nil (by simp)
  | succ fuel ih =>
    intro l hlen
    cases hs : select_min l with
    | none =>
      have hnil : l = [] := select_min_eq_none.1 hs
      subst hnil
      simp only [pop_go, select_min]
      exact pop_due_order.nil (by simp)
    | some p =>
      obtain ⟨m, rest⟩ := p
      obtain ⟨A, B, hdec, hrest⟩ := select_min_decomp hs
      have hmin := select_min_minimal hs
      by_cases hd : entry_expiry m ≤ now
      · have hres : (pop_go (fuel + 1) now l).1 = m :: (pop_go fuel now rest).1 := by
          simp [pop_go, hs, hd]
        have hrl : rest.length ≤ fuel := by
          have := select_min_length hs
          omega
        have hrec := ih rest hrl
        rw [hres, hdec]
        refine pop_due_order.cons A B m hd ?_ ?_
        · rw [← hdec]; exact hmin
        · rw [← hrest]; exact hrec
      · have hres : (pop_go (fuel + 1) now l).1 = [] := by
          simp [pop_go, hs, hd]
        rw [hres]
        refine pop_due_order.nil ?_
        intro e he hle
        exact hd (Nat.le_trans (hmin e he) hle)

/-- The executable pop loop realizes one admissible pop order. -/
theorem pop_all_due_order (now : Nat) (l : List heap_entry) :
    pop_due_order now l (pop_all_due now l).1 :=
  pop_go_order now l.length l (Nat.le_refl _)

/-- A dedicated recurring-timer descriptor: an element of
`timer_epoll::m_recurring_timer_iodevs` (line 111), carrying the period and
the timer's callback and cookie. -/
structure recurring_dev where
  dev_id : Nat
  period : Nat
  cb : Nat
  dev_context : Nat
deriving DecidableEq, Repr

/-- One callback invocation, recorded when the scheduler fires a timer:
identity of the queue entry or descriptor it came from, plus the callback and
context it was invoked with. -/
structure fired_event where
  src_id : Nat
  cb : Nat
  ev_context : Nat
deriving DecidableEq, Repr

/-- Error reported synchronously to the caller of `schedule` (spec section 7
taxonomy: stopped scheduler, invalid argument). -/
inductive sched_error where
  | stopped_err
  | invalid_arg
deriving DecidableEq, Repr

/-- Result of one scheduler operation: the handle returned by `schedule` (if
any), the error reported (if any), and the callbacks invoked, in invocation
order. -/
structure step_out where
  ret : Option timer_handle_t
  err : Option sched_error
  fired : List fired_event
deriving DecidableEq, Repr

/-- The invalid-argument test for a negative delay (spec section 7). The
public interface (line 78) types the delay as `uint64_t`, embedded as `Nat`. -/
def negative_delay (nanos_after : Nat) : Bool :=
  decide (nanos_after < 0)

/-- State of a `timer_epoll` scheduler (lines 62-112).
`m_common_timer_io_dev` embeds the shared descriptor's `shared_ptr` plus its
armed state: `none` is a null pointer (released / not yet created),
`some none` a created but disarmed descriptor, `some (some t)` a descriptor
armed to fire at absolute time `t`. `next_node_id` is a fresh-identity source
embedding the distinctness of heap nodes and descriptor objects. -/
structure timer_epoll where
  m_is_thread_local : Bool
  m_stopped : Bool
  m_timer_list : List heap_entry
  m_common_timer_io_dev : Option (Option Nat)
  m_recurring_timer_iodevs : List recurring_dev
  next_node_id : Nat
deriving DecidableEq, Repr

/-- Embeds construction of a `timer_epoll` scheduler: the base-class
constructor (line 64) sets only `m_is_thread_local`; `m_stopped` is
initialized `false` (line 89), the queue and the recurring set are
default-constructed empty, and the shared descriptor pointer is null. -/
def timer_epoll.new (is_per_thread : Bool) : timer_epoll :=
  { m_is_thread_local := is_per_thread
    m_stopped := false
    m_timer_list := []
    m_common_timer_io_dev := none
    m_recurring_timer_iodevs := []
    next_node_id := 0 }

/-- Shared-descriptor state that matches a queue: disarmed when the queue is
empty, armed to the queue minimum otherwise. -/
def rearm_state (l : List heap_entry) : Option (Option Nat) :=
  if l.isEmpty then some none else some (some (min_expiry l))

/-- Rearm policy on one-shot insertion (spec section 4.2): if the new expiry
`t` beats the currently armed time the descriptor is rearmed to `t`;
otherwise it keeps its armed time; a released or disarmed descriptor is
(lazily created and) armed to `t`. -/
def arm_if_earlier (dev : Option (Option Nat)) (t : Nat) : Option (Option Nat) :=
  match dev with
  | some (some t0) => if t < t0 then some (some t) else some (some t0)
  | _ => some (some t)

theorem arm_if_earlier_armed (t0 t : Nat) :
    arm_if_earlier (some (some t0)) t = some (some (Nat.min t0 t)) := by
  by_cases h : t < t0
  · simp [arm_if_earlier, h, Nat.min_eq_right (Nat.le_of_lt h)]
  · simp [arm_if_earlier, h, Nat.min_eq_left (Nat.le_of_not_lt h)]

/-- Modelled from the spec: `timer_epoll::schedule` (declared line 97, body
absent from the snapshot). Rejects the call with an error when the scheduler
is stopped; otherwise, for a recurring request allocates a dedicated
descriptor and returns the descriptor-handle variant, and for a one-shot
request inserts one Deadline Entry with expiry `now + nanos_after` (via the
`timer_info` constructor, lines 25-30) into the Deadline Queue, (re)arms the
shared descriptor to that expiry when the entry becomes the new minimum
(creating the descriptor lazily on first use), and returns the queue-handle
variant. -/
def timer_epoll.schedule (s : timer_epoll) (now nanos_after : Nat)
    (recurring : Bool) (cookie : Nat) (timer_fn : Nat) : timer_epoll × step_out :=
  if s.m_stopped then (s, ⟨none, some sched_error.stopped_err, []⟩)
  else if negative_delay nanos_after then (s, ⟨none, some sched_error.invalid_arg, []⟩)
  else if recurring then
    ({ s with
        m_recurring_timer_iodevs :=
          s.m_recurring_timer_iodevs ++ [⟨s.next_node_id, nanos_after, timer_fn, cookie⟩]
        next_node_id := s.next_node_id + 1 },
      ⟨some (timer_handle_t.iodev_hdl (some s.next_node_id)), none, []⟩)
  else
    let info := timer_info.make nanos_after now cookie timer_fn 0
    ({ s with
        m_timer_list := s.m_timer_list ++ [(s.next_node_id, info)]
        m_common_timer_io_dev := arm_if_earlier s.m_common_timer_io_dev info.expiry_time
        next_node_id := s.next_node_id + 1 },
      ⟨some (timer_handle_t.heap_hdl s.next_node_id), none, []⟩)

/-- Modelled from the spec: `timer_epoll::cancel` (declared line 98, body
absent from the snapshot). A queue handle removes the corresponding entry if
it is still present and rearms the shared descriptor to the new minimum
(disarming it when the queue empties, maintaining the section-3 invariant); a
handle whose entry is no longer live is a benign no-op. A descriptor handle
releases the dedicated descriptor and removes it from the recurring set; a
null handle is a no-op. `cancel` never reports an error and never invokes a
callback. -/
def timer_epoll.cancel (s : timer_epoll) (thandle : timer_handle_t) :
    timer_epoll × step_out :=
  match thandle with
  | timer_handle_t.heap_hdl node_id =>
    if s.m_timer_list.any (fun e => e.1 == node_id) then
      let l' := s.m_timer_list.filter (fun e => !(e.1 == node_id))
      ({ s with m_timer_list := l', m_common_timer_io_dev := rearm_state l' },
        ⟨none, none, []⟩)
    else (s, ⟨none, none, []⟩)
  | timer_handle_t.iodev_hdl none => (s, ⟨none, none, []⟩)
  | timer_handle_t.iodev_hdl (some dev_id) =>
    ({ s with
        m_recurring_timer_iodevs :=
          s.m_recurring_timer_iodevs.filter (fun d => !(d.dev_id == dev_id)) },
      ⟨none, none, []⟩)

/-- Modelled from the spec: `timer_epoll::on_timer_fd_notification` for the
shared descriptor (declared line 103, body absent from the snapshot). Pops all
due entries at the notification time, invokes their callbacks in pop order,
and rearms the shared descriptor to the new minimum, leaving it disarmed if
the queue emptied. A released (null) shared descriptor produces no
notification. -/
def timer_epoll.on_timer_fd_notification (s : timer_epoll) (now : Nat) :
    timer_epoll × step_out :=
  match s.m_common_timer_io_dev with
  | none => (s, ⟨none, none, []⟩)
  | some _ =>
    let p := pop_all_due now s.m_timer_list
    ({ s with m_timer_list := p.2, m_common_timer_io_dev := rearm_state p.2 },
      ⟨none, none, p.1.map (fun e => ⟨e.1, e.2.cb, e.2.context⟩)⟩)

/-- Modelled from the spec: readiness of a dedicated recurring descriptor
(section 4.3). If the descriptor is still in the recurring set its callback is
invoked with its context and the kernel rearms it (no state change); a
cancelled (released) descriptor no longer fires. -/
def timer_epoll.on_recurring_fire (s : timer_epoll) (dev_id : Nat) :
    timer_epoll × step_out :=
  match s.m_recurring_timer_iodevs.find? (fun d => d.dev_id == dev_id) with
  | none => (s, ⟨none, none, []⟩)
  | some d => (s, ⟨none, none, [⟨d.dev_id, d.cb, d.dev_context⟩]⟩)

/-- Modelled from the spec: `timer_epoll::stop` (declared line 101, body
absent from the snapshot). Marks the scheduler stopped, cancels every
outstanding recurring timer, drains all queued one-shot entries without
invoking their callbacks, and releases the shared descriptor. -/
def timer_epoll.stop (s : timer_epoll) : timer_epoll × step_out :=
  ({ s with
      m_stopped := true
      m_timer_list := []
      m_recurring_timer_iodevs := []
      m_common_timer_io_dev := none },
    ⟨none, none, []⟩)

/-- One external stimulus to a scheduler: an API call (`schedule`, `cancel`,
`stop`) or a reactor notification on the shared or a dedicated descriptor. -/
inductive timer_op where
  | op_schedule (now nanos_after : Nat) (recurring : Bool) (cookie timer_fn : Nat)
  | op_cancel (thandle : timer_handle_t)
  | op_fd_ready (now : Nat)
  | op_recurring_ready (dev_id : Nat)
  | op_stop
deriving DecidableEq, Repr

/-- Dispatch one operation on the scheduler. -/
def timer_step (s : timer_epoll) : timer_op → timer_epoll × step_out
  | timer_op.op_schedule now d recurring c f => s.schedule now d recurring c f
  | timer_op.op_cancel h => s.cancel h
  | timer_op.op_fd_ready now => s.on_timer_fd_notification now
  | timer_op.op_recurring_ready dev_id => s.on_recurring_fire dev_id
  | timer_op.op_stop => s.stop

/-- Run a sequence of operations. -/
def timer_run (s : timer_epoll) : List timer_op → timer_epoll
  | [] => s
  | op :: ops => timer_run (timer_step s op).1 ops

/-- All callback invocations produced while running a sequence of operations,
in order. -/
def timer_trace (s : timer_epoll) : List timer_op → List fired_event
  | [] => []
  | op :: ops => (timer_step s op).2.fired ++ timer_trace (timer_step s op).1 ops

theorem negative_delay_eq_false (n : Nat) : negative_delay n = false := by
  simp [negative_delay]

theorem min_expiry_cons_cons (x y : heap_entry) (ys : List heap_entry) :
    min_expiry (x :: y :: ys) = Nat.min (entry_expiry x) (min_expiry (y :: ys)) := rfl

theorem min_expiry_append_single (l : List heap_entry) (e : heap_entry) :
    l ≠ [] → min_expiry (l ++ [e]) = Nat.min (min_expiry l) (entry_expiry e) := by
  induction l with
  | nil => intro h; cases h rfl
  | cons x xs ih =>
    intro _
    cases xs with
    | nil => simp [min_expiry]
    | cons y ys =>
      have hih := ih (by simp)
      calc min_expiry ((x :: y :: ys) ++ [e])
          = Nat.min (entry_expiry x) (min_expiry ((y :: ys) ++ [e])) := by
            cases ys <;> rfl
        _ = Nat.min (entry_expiry x) (Nat.min (min_expiry (y :: ys)) (entry_expiry e)) := by
            rw [hih]
        _ = Nat.min (min_expiry (x :: y :: ys)) (entry_expiry e) := by
            rw [min_expiry_cons_cons]
            simp only [Nat.min_def]
            split_ifs <;> omega

theorem min_expiry_cons_append (x : heap_entry) (xs : List heap_entry)
    (e : heap_entry) :
    min_expiry (x :: (xs ++ [e])) = Nat.min (min_expiry (x :: xs)) (entry_expiry e) := by
  rw [← List.cons_append]
  exact min_expiry_append_single (x :: xs) e (List.cons_ne_nil x xs)

/-- The section-3 invariant relating the Deadline Queue and the shared
descriptor: armed exactly to the queue minimum when the queue is non-empty,
disarmed or released when it is empty. -/
def armed_matches_min (s : timer_epoll) : Prop :=
  (s.m_timer_list ≠ [] →
    s.m_common_timer_io_dev = some (some (min_expiry s.m_timer_list))) ∧
  (s.m_timer_list = [] →
    s.m_common_timer_io_dev = none ∨ s.m_common_timer_io_dev = some none)

theorem armed_matches_min_of_rearm {s' : timer_epoll} {l : List heap_entry}
    (h1 : s'.m_timer_list = l) (h2 : s'.m_common_timer_io_dev = rearm_state l) :
    armed_matches_min s' := by
  unfold armed_matches_min
  rw [h1, h2]
  cases l with
  | nil => exact ⟨fun h => absurd rfl h, fun _ => Or.inr rfl⟩
  | cons x xs =>
    refine ⟨fun _ => ?_, fun h => absurd h (by simp)⟩
    simp [rearm_state]

theorem armed_matches_min_step (s : timer_epoll) (op : timer_op)
    (h : armed_matches_min s) : armed_matches_min (timer_step s op).1 := by
  have hinv : armed_matches_min s := h
  obtain ⟨h1, h2⟩ := h
  cases op with
  | op_schedule now d recurring c f =>
    by_cases hst : s.m_stopped
    · simpa [timer_step, timer_epoll.schedule, hst] using hinv
    · cases recurring with
      | true =>
        simp only [timer_step, timer_epoll.schedule, hst, if_false,
          negative_delay_eq_false, Bool.false_eq_true, if_true]
        exact And.intro h1 h2
      | false =>
        simp only [timer_step, timer_epoll.schedule, hst, if_false,
          negative_delay_eq_false, Bool.false_eq_true, if_true]
        refine ⟨?_, ?_⟩
        · intro _
          cases hl : s.m_timer_list with
          | nil =>
            rcases h2 hl with hdev | hdev <;>
              simp [hl, hdev, arm_if_earlier, min_expiry, entry_expiry]
          | cons x xs =>
            have hdev := h1 (by simp [hl])
            rw [hl] at hdev
            simp [hl, hdev, arm_if_earlier_armed, entry_expiry,
              min_expiry_cons_append]
        · intro hfalse
          simp at hfalse
  | op_cancel thandle =>
    cases thandle with
    | heap_hdl node_id =>
      by_cases hany : s.m_timer_list.any (fun e => e.1 == node_id)
      · simp only [timer_step, timer_epoll.cancel, hany, if_true]
        exact armed_matches_min_of_rearm rfl rfl
      · simpa [timer_step, timer_epoll.cancel, hany] using hinv
    | iodev_hdl o =>
      cases o with
      | none => simpa [timer_step, timer_epoll.cancel] using hinv
      | some dev_id =>
        simpa [timer_step, timer_epoll.cancel] using hinv
  | op_fd_ready now =>
    cases hdev : s.m_common_timer_io_dev with
    | none => simpa [timer_step, timer_epoll.on_timer_fd_notification, hdev]
        using hinv
    | some a =>
      simp only [timer_step, timer_epoll.on_timer_fd_notification, hdev]
      exact armed_matches_min_of_rearm rfl rfl
  | op_recurring_ready dev_id =>
    cases hf : s.m_recurring_timer_iodevs.find? (fun d => d.dev_id == dev_id) with
    | none => simpa [timer_step, timer_epoll.on_recurring_fire, hf]
        using hinv
    | some d => simpa [timer_step, timer_epoll.on_recurring_fire, hf]
        using hinv
  | op_stop =>
    refine ⟨?_, ?_⟩
    · intro hne
      exact absurd rfl hne
    · intro _
      exact Or.inl rfl

theorem armed_matches_min_run (s : timer_epoll) (ops : List timer_op)
    (h : armed_matches_min s) : armed_matches_min (timer_run s ops) := by
  induction ops generalizing s with
  | nil => exact h
  | cons op ops ih => exact ih _ (armed_matches_min_step s op h)

/-- Identities of the live queue entries and recurring descriptors. -/
def live_ids (s : timer_epoll) : List Nat :=
  s.m_timer_list.map Prod.fst ++ s.m_recurring_timer_iodevs.map recurring_dev.dev_id

/-- An identity that has been retired: it was issued earlier (below the
fresh-identity counter) and no live queue entry or descriptor carries it —
the state of an entry that already fired or was already cancelled. -/
def id_dead (s : timer_epoll) (i : Nat) : Prop :=
  i ∉ live_ids s ∧ i < s.next_node_id

/-- A handle whose entry already fired or was already cancelled; the null
descriptor handle is vacuously stale. -/
def stale_handle (s : timer_epoll) : timer_handle_t → Prop
  | timer_handle_t.heap_hdl node_id => id_dead s node_id
  | timer_handle_t.iodev_hdl none => True
  | timer_handle_t.iodev_hdl (some dev_id) => id_dead s dev_id

theorem mem_live_ids {s : timer_epoll} {i : Nat} :
    i ∈ live_ids s ↔ (∃ e ∈ s.m_timer_list, e.1 = i) ∨
      (∃ d ∈ s.m_recurring_timer_iodevs, d.dev_id = i) := by
  simp [live_ids]

theorem id_dead_step (s : timer_epoll) (op : timer_op) (i : Nat)
    (h : id_dead s i) :
    id_dead (timer_step s op).1 i ∧
      ∀ ev ∈ (timer_step s op).2.fired, ev.src_id ≠ i := by
  obtain ⟨hlive, hlt⟩ := h
  have hd0 : id_dead s i := ⟨hlive, hlt⟩
  have hids1 : ∀ e ∈ s.m_timer_list, e.1 ≠ i := fun e he hee =>
    hlive (mem_live_ids.2 (Or.inl ⟨e, he, hee⟩))
  have hids2 : ∀ d ∈ s.m_recurring_timer_iodevs, d.dev_id ≠ i := fun d hd hdd =>
    hlive (mem_live_ids.2 (Or.inr ⟨d, hd, hdd⟩))
  cases op with
  | op_schedule now d recurring c f =>
    by_cases hst : s.m_stopped
    · exact ⟨by simpa [timer_step, timer_epoll.schedule, hst] using hd0,
        by simp [timer_step, timer_epoll.schedule, hst]⟩
    · cases recurring with
      | true =>
        simp only [timer_step, timer_epoll.schedule, hst, if_false,
          negative_delay_eq_false, Bool.false_eq_true, if_true]
        refine ⟨⟨?_, ?_⟩, by simp⟩
        · intro hmem
          rw [mem_live_ids] at hmem
          rcases hmem with ⟨e, he, hee⟩ | ⟨d', hd', hdd'⟩
          · replace he : e ∈ s.m_timer_list := he
            exact hids1 e he hee
          · replace hd' : d' ∈ s.m_recurring_timer_iodevs ++
                [⟨s.next_node_id, d, f, c⟩] := hd'
            rcases List.mem_append.1 hd' with hd' | hd'
            · exact hids2 d' hd' hdd'
            · have hd'' : d' = ⟨s.next_node_id, d, f, c⟩ := by simpa using hd'
              rw [hd''] at hdd'
              simp only [] at hdd'
              omega
        · show i < s.next_node_id + 1
          omega
      | false =>
        simp only [timer_step, timer_epoll.schedule, hst, if_false,
          negative_delay_eq_false, Bool.false_eq_true, if_true]
        refine ⟨⟨?_, ?_⟩, by simp⟩
        · intro hmem
          rw [mem_live_ids] at hmem
          rcases hmem with ⟨e, he, hee⟩ | ⟨d', hd', hdd'⟩
          · replace he : e ∈ s.m_timer_list ++
                [(s.next_node_id, timer_info.make d now c f 0)] := he
            rcases List.mem_append.1 he with he | he
            · exact hids1 e he hee
            · have he' : e = (s.next_node_id, timer_info.make d now c f 0) := by
                simpa using he
              rw [he'] at hee
              simp only [] at hee
              omega
          · replace hd' : d' ∈ s.m_recurring_timer_iodevs := hd'
            exact hids2 d' hd' hdd'
        · show i < s.next_node_id + 1
          omega
  | op_cancel thandle =>
    cases thandle with
    | heap_hdl node_id =>
      by_cases hany : s.m_timer_list.any (fun e => e.1 == node_id)
      · simp only [timer_step, timer_epoll.cancel, hany, if_true]
        refine ⟨⟨?_, hlt⟩, by simp⟩
        intro hmem
        rw [mem_live_ids] at hmem
        rcases hmem with ⟨e, he, hee⟩ | ⟨d', hd', hdd'⟩
        · replace he : e ∈ s.m_timer_list.filter (fun e => !(e.1 == node_id)) := he
          exact hids1 e (List.mem_of_mem_filter he) hee
        · replace hd' : d' ∈ s.m_recurring_timer_iodevs := hd'
          exact hids2 d' hd' hdd'
      · exact ⟨by simpa [timer_step, timer_epoll.cancel, hany] using hd0,
          by simp [timer_step, timer_epoll.cancel, hany]⟩
    | iodev_hdl o =>
      cases o with
      | none => exact ⟨by simpa [timer_step, timer_epoll.cancel] using hd0,
          by simp [timer_step, timer_epoll.cancel]⟩
      | some dev_id =>
        simp only [timer_step, timer_epoll.cancel]
        refine ⟨⟨?_, hlt⟩, by simp⟩
        intro hmem
        rw [mem_live_ids] at hmem
        rcases hmem with ⟨e, he, hee⟩ | ⟨d', hd', hdd'⟩
        · replace he : e ∈ s.m_timer_list := he
          exact hids1 e he hee
        · replace hd' : d' ∈ s.m_recurring_timer_iodevs.filter
              (fun d => !(d.dev_id == dev_id)) := hd'
          exact hids2 d' (List.mem_of_mem_filter hd') hdd'
  | op_fd_ready now =>
    cases hdev : s.m_common_timer_io_dev with
    | none =>
      exact ⟨by simpa [timer_step, timer_epoll.on_timer_fd_notification, hdev]
          using hd0,
        by simp [timer_step, timer_epoll.on_timer_fd_notification, hdev]⟩
    | some a =>
      simp only [timer_step, timer_epoll.on_timer_fd_notification, hdev]
      constructor
      · refine ⟨?_, hlt⟩
        intro hmem
        rw [mem_live_ids] at hmem
        rcases hmem with ⟨e, he, hee⟩ | ⟨d', hd', hdd'⟩
        · replace he : e ∈ (pop_all_due now s.m_timer_list).2 := he
          have he2 : e ∈ s.m_timer_list := by
            have hrest := (pop_all_due_spec now s.m_timer_list).2.1
            rw [hrest] at he
            exact List.mem_of_mem_filter he
          exact hids1 e he2 hee
        · replace hd' : d' ∈ s.m_recurring_timer_iodevs := hd'
          exact hids2 d' hd' hdd'
      · intro ev hev
        replace hev : ev ∈ (pop_all_due now s.m_timer_list).1.map
            (fun e => fired_event.mk e.1 e.2.cb e.2.context) := hev
        obtain ⟨e, he, hee⟩ := List.mem_map.1 hev
        rw [← hee]
        exact hids1 e (pop_all_due_subset e he)
  | op_recurring_ready dev_id =>
    cases hf : s.m_recurring_timer_iodevs.find? (fun d => d.dev_id == dev_id) with
    | none =>
      exact ⟨by simpa [timer_step, timer_epoll.on_recurring_fire, hf] using hd0,
        by simp [timer_step, timer_epoll.on_recurring_fire, hf]⟩
    | some d =>
      refine ⟨by simpa [timer_step, timer_epoll.on_recurring_fire, hf] using hd0, ?_⟩
      simp only [timer_step, timer_epoll.on_recurring_fire, hf]
      intro ev hev
      have hd : d ∈ s.m_recurring_timer_iodevs := List.mem_of_find?_eq_some hf
      have hev' : ev = fired_event.mk d.dev_id d.cb d.dev_context := by
        simpa using hev
      rw [hev']
      exact hids2 d hd
  | op_stop =>
    refine ⟨⟨?_, hlt⟩, by simp [timer_step, timer_epoll.stop]⟩
    intro hmem
    rw [mem_live_ids] at hmem
    rcases hmem with ⟨e, he, hee⟩ | ⟨d', hd', hdd'⟩
    · replace he : e ∈ ([] : List heap_entry) := he
      cases he
    · replace hd' : d' ∈ ([] : List recurring_dev) := hd'
      cases hd'

theorem id_dead_trace (s : timer_epoll) (ops : List timer_op) (i : Nat)
    (h : id_dead s i) : ∀ ev ∈ timer_trace s ops, ev.src_id ≠ i := by
  induction ops generalizing s with
  | nil => intro ev hev; cases hev
  | cons op ops ih =>
    intro ev hev
    rcases List.mem_append.1 hev with hev1 | hev2
    · exact (id_dead_step s op i h).2 ev hev1
    · exact ih _ (id_dead_step s op i h).1 ev hev2

theorem stopped_step (s : timer_epoll) (op : timer_op)
    (h : s.m_stopped = true) : (timer_step s op).1.m_stopped = true := by
  cases op with
  | op_schedule now d recurring c f =>
    simp [timer_step, timer_epoll.schedule, h]
  | op_cancel thandle =>
    cases thandle with
    | heap_hdl node_id =>
      by_cases hany : s.m_timer_list.any (fun e => e.1 == node_id) <;>
        simp [timer_step, timer_epoll.cancel, hany, h]
    | iodev_hdl o =>
      cases o <;> simp [timer_step, timer_epoll.cancel, h]
  | op_fd_ready now =>
    cases hdev : s.m_common_timer_io_dev <;>
      simp [timer_step, timer_epoll.on_timer_fd_notification, hdev, h]
  | op_recurring_ready dev_id =>
    cases hf : s.m_recurring_timer_iodevs.find? (fun d => d.dev_id == dev_id) <;>
      simp [timer_step, timer_epoll.on_recurring_fire, hf, h]
  | op_stop => simp [timer_step, timer_epoll.stop]

theorem stopped_run (s : timer_epoll) (ops : List timer_op)
    (h : s.m_stopped = true) : (timer_run s ops).m_stopped = true := by
  induction ops generalizing s with
  | nil => exact h
  | cons op ops ih => exact ih _ (stopped_step s op h)

/-- The terminal state reached by `stop`: stopped, queue drained, recurring
set empty, shared descriptor released. -/
def sched_dead (s : timer_epoll) : Prop :=
  s.m_stopped = true ∧ s.m_timer_list = [] ∧
    s.m_recurring_timer_iodevs = [] ∧ s.m_common_timer_io_dev = none

theorem sched_dead_step (s : timer_epoll) (op : timer_op) (h : sched_dead s) :
    sched_dead (timer_step s op).1 ∧ (timer_step s op).2.fired = [] := by
  obtain ⟨hst, hl, hr, hdev⟩ := h
  cases op with
  | op_schedule now d recurring c f =>
    refine ⟨⟨?_, ?_, ?_, ?_⟩, ?_⟩ <;>
      simp [timer_step, timer_epoll.schedule, hst, hl, hr, hdev]
  | op_cancel thandle =>
    cases thandle with
    | heap_hdl node_id =>
      refine ⟨⟨?_, ?_, ?_, ?_⟩, ?_⟩ <;>
        simp [timer_step, timer_epoll.cancel, hst, hl, hr, hdev]
    | iodev_hdl o =>
      cases o with
      | none =>
        refine ⟨⟨?_, ?_, ?_, ?_⟩, ?_⟩ <;>
          simp [timer_step, timer_epoll.cancel, hst, hl, hr, hdev]
      | some dev_id =>
        refine ⟨⟨?_, ?_, ?_, ?_⟩, ?_⟩ <;>
          simp [timer_step, timer_epoll.cancel, hst, hl, hr, hdev]
  | op_fd_ready now =>
    refine ⟨⟨?_, ?_, ?_, ?_⟩, ?_⟩ <;>
      simp [timer_step, timer_epoll.on_timer_fd_notification, hst, hl, hr, hdev]
  | op_recurring_ready dev_id =>
    refine ⟨⟨?_, ?_, ?_, ?_⟩, ?_⟩ <;>
      simp [timer_step, timer_epoll.on_recurring_fire, hst, hl, hr, hdev]
  | op_stop =>
    refine ⟨⟨?_, ?_, ?_, ?_⟩, ?_⟩ <;>
      simp [timer_step, timer_epoll.stop, hst, hl, hr, hdev]

theorem sched_dead_trace (s : timer_epoll) (ops : List timer_op)
    (h : sched_dead s) : timer_trace s ops = [] := by
  induction ops generalizing s with
  | nil => rfl
  | cons op ops ih =>
    have hstep := sched_dead_step s op h
    simp only [timer_trace, hstep.2, List.nil_append]
    exact ih _ hstep.1

/-- Identity referenced by a timer handle, if any. -/
def handle_id : timer_handle_t → Option Nat
  | timer_handle_t.heap_hdl node_id => some node_id
  | timer_handle_t.iodev_hdl o => o

/-- C1: for every reachable state of a scheduler under any sequence of
operations (schedule, cancel, and also descriptor notifications and stop),
the shared descriptor is armed exactly to the Deadline Queue's minimum expiry
whenever the queue is non-empty, and is disarmed or released whenever the
queue is empty. -/
theorem C1_shared_descriptor_tracks_queue_min (tl : Bool) (ops : List timer_op) :
    armed_matches_min (timer_run (timer_epoll.new tl) ops) := by
  apply armed_matches_min_run
  exact ⟨fun h => absurd rfl h, fun _ => Or.inl rfl⟩

theorem C1_shared_descriptor_tracks_queue_min_witness :
    armed_matches_min (timer_run (timer_epoll.new true)
      [timer_op.op_schedule 0 50 false 1 2, timer_op.op_schedule 0 10 false 3 4,
        timer_op.op_fd_ready 20, timer_op.op_stop]) :=
  C1_shared_descriptor_tracks_queue_min true
    [timer_op.op_schedule 0 50 false 1 2, timer_op.op_schedule 0 10 false 3 4,
      timer_op.op_fd_ready 20, timer_op.op_stop]

/-- C2: `pop_all_due(now)` removes and returns exactly the entries with
expiry at most `now` (the remainder keeps exactly the others, in order), in
ascending expiry order; with pairwise-distinct deadlines that are all due,
popping yields all N entries in strictly ascending deadline order. -/
theorem C2_pop_all_due_exact_ascending (now : Nat) (l : List heap_entry) :
    (pop_all_due now l).1.Perm (l.filter fun e => decide (entry_expiry e ≤ now)) ∧
    (pop_all_due now l).2 = l.filter (fun e => decide (now < entry_expiry e)) ∧
    (pop_all_due now l).1.Pairwise (fun a b => entry_expiry a ≤ entry_expiry b) ∧
    ((∀ e ∈ l, entry_expiry e ≤ now) → (l.map entry_expiry).Nodup →
      (pop_all_due now l).1.length = l.length ∧
      (pop_all_due now l).1.Pairwise (fun a b => entry_expiry a < entry_expiry b)) := by
  obtain ⟨h1, h2, h3⟩ := pop_all_due_spec now l
  refine ⟨h1, h2, h3, ?_⟩
  intro hall hnd
  have hfl : l.filter (fun e => decide (entry_expiry e ≤ now)) = l := by
    refine List.filter_eq_self.2 ?_
    intro e he
    simpa using hall e he
  have hperm : (pop_all_due now l).1.Perm l := by
    rw [hfl] at h1
    exact h1
  refine ⟨hperm.length_eq, ?_⟩
  have hmnd : ((pop_all_due now l).1.map entry_expiry).Nodup :=
    ((hperm.map entry_expiry).symm).nodup hnd
  have hneq : (pop_all_due now l).1.Pairwise
      (fun a b => entry_expiry a ≠ entry_expiry b) :=
    List.pairwise_map.1 hmnd
  exact (h3.and hneq).imp fun hab => Nat.lt_of_le_of_ne hab.1 hab.2

theorem C2_pop_all_due_exact_ascending_witness :
    ((∀ e ∈ [((0 : Nat), timer_info.mk 30 1 0 0), (1, timer_info.mk 10 2 0 0),
        (2, timer_info.mk 20 3 0 0)], entry_expiry e ≤ 100) ∧
      (([((0 : Nat), timer_info.mk 30 1 0 0), (1, timer_info.mk 10 2 0 0),
        (2, timer_info.mk 20 3 0 0)].map entry_expiry).Nodup)) ∧
    (pop_all_due 100 [((0 : Nat), timer_info.mk 30 1 0 0),
        (1, timer_info.mk 10 2 0 0), (2, timer_info.mk 20 3 0 0)]).1.length =
      [((0 : Nat), timer_info.mk 30 1 0 0), (1, timer_info.mk 10 2 0 0),
        (2, timer_info.mk 20 3 0 0)].length ∧
    (pop_all_due 100 [((0 : Nat), timer_info.mk 30 1 0 0),
        (1, timer_info.mk 10 2 0 0), (2, timer_info.mk 20 3 0 0)]).1.Pairwise
      (fun a b => entry_expiry a < entry_expiry b) :=
  ⟨⟨by decide, by decide⟩,
    (C2_pop_all_due_exact_ascending 100 [((0 : Nat), timer_info.mk 30 1 0 0),
      (1, timer_info.mk 10 2 0 0), (2, timer_info.mk 20 3 0 0)]).2.2.2
      (by decide) (by decide)⟩

/-- C3: on an active scheduler a non-recurring `schedule(d, false, c, f)`
call at clock value `now` appends exactly one Deadline Entry with expiry
`now + d`, callback `f` and context `c` to the Deadline Queue, reports no
error, and returns the queue-position variant of the handle. -/
theorem C3_schedule_oneshot_inserts_entry (s : timer_epoll)
    (now d c f : Nat) (h : s.m_stopped = false) :
    (s.schedule now d false c f).1.m_timer_list = s.m_timer_list ++
      [(s.next_node_id,
        { expiry_time := now + d, cb := f, context := c, parent_timer := 0 })] ∧
    (s.schedule now d false c f).2.ret =
      some (timer_handle_t.heap_hdl s.next_node_id) ∧
    (s.schedule now d false c f).2.err = none := by
  refine ⟨?_, ?_, ?_⟩ <;>
    simp [timer_epoll.schedule, h, negative_delay_eq_false, timer_info.make]

theorem C3_schedule_oneshot_inserts_entry_witness :
    (timer_epoll.new true).m_stopped = false ∧
    (((timer_epoll.new true).schedule 5 7 false 3 4).1.m_timer_list =
      (timer_epoll.new true).m_timer_list ++
        [((timer_epoll.new true).next_node_id,
          { expiry_time := 5 + 7, cb := 4, context := 3, parent_timer := 0 })] ∧
    ((timer_epoll.new true).schedule 5 7 false 3 4).2.ret =
      some (timer_handle_t.heap_hdl (timer_epoll.new true).next_node_id) ∧
    ((timer_epoll.new true).schedule 5 7 false 3 4).2.err = none) :=
  ⟨rfl, C3_schedule_oneshot_inserts_entry (timer_epoll.new true) 5 7 3 4 rfl⟩

/-- C4: `cancel` on a stale handle (entry already fired or already
cancelled) is a no-op success: no error, no state change, no callback
invocation, and the handle's callback is never invoked by any later
operation sequence (at-most-once delivery). -/
theorem C4_cancel_stale_handle_noop (s : timer_epoll)
    (thandle : timer_handle_t) (ops : List timer_op) (i : Nat)
    (h : stale_handle s thandle) (hi : handle_id thandle = some i) :
    s.cancel thandle = (s, ⟨none, none, []⟩) ∧
    (timer_trace s ops).all (fun ev => !(ev.src_id == i)) = true := by
  have htrace : ∀ j, id_dead s j →
      (timer_trace s ops).all (fun ev => !(ev.src_id == j)) = true := by
    intro j hj
    rw [List.all_eq_true]
    intro ev hev
    simpa using id_dead_trace s ops j hj ev hev
  cases thandle with
  | heap_hdl node_id =>
    have hd : id_dead s node_id := h
    have hii : i = node_id := by
      have : some node_id = some i := hi
      simpa using this.symm
    subst hii
    refine ⟨?_, htrace _ hd⟩
    have hany : s.m_timer_list.any (fun e => e.1 == i) = false := by
      rw [Bool.eq_false_iff]
      intro hsome
      obtain ⟨e, he, hee⟩ := List.any_eq_true.1 hsome
      exact hd.1 (mem_live_ids.2 (Or.inl ⟨e, he, by simpa using hee⟩))
    simp [timer_epoll.cancel, hany]
  | iodev_hdl o =>
    cases o with
    | none => simp [handle_id] at hi
    | some dev_id =>
      have hd : id_dead s dev_id := h
      have hii : i = dev_id := by
        have : some dev_id = some i := hi
        simpa using this.symm
      subst hii
      refine ⟨?_, htrace _ hd⟩
      have hfe : s.m_recurring_timer_iodevs.filter
          (fun d => !(d.dev_id == i)) = s.m_recurring_timer_iodevs := by
        refine List.filter_eq_self.2 ?_
        intro d hdm
        simp only [Bool.not_eq_true']
        rw [beq_eq_false_iff_ne]
        intro hdd
        exact hd.1 (mem_live_ids.2 (Or.inr ⟨d, hdm, hdd⟩))
      show ({ s with
          m_recurring_timer_iodevs :=
            s.m_recurring_timer_iodevs.filter (fun d => !(d.dev_id == i)) },
        (⟨none, none, []⟩ : step_out)) = (s, ⟨none, none, []⟩)
      rw [hfe]

/-- Example state retiring identity 0: one one-shot timer scheduled and then
cancelled. -/
def stale_example_state : timer_epoll :=
  ((((timer_epoll.new true).schedule 0 5 false 1 2).1).cancel
    (timer_handle_t.heap_hdl 0)).1

theorem C4_cancel_stale_handle_noop_witness :
    stale_handle stale_example_state (timer_handle_t.heap_hdl 0) ∧
    handle_id (timer_handle_t.heap_hdl 0) = some 0 ∧
    (stale_example_state.cancel (timer_handle_t.heap_hdl 0) =
        (stale_example_state, ⟨none, none, []⟩) ∧
      (timer_trace stale_example_state [timer_op.op_schedule 10 1 false 7 8,
        timer_op.op_fd_ready 50]).all (fun ev => !(ev.src_id == 0)) = true) := by
  have hstale : stale_handle stale_example_state (timer_handle_t.heap_hdl 0) :=
    show id_dead stale_example_state 0 from ⟨by decide, by decide⟩
  exact ⟨hstale, rfl, C4_cancel_stale_handle_noop stale_example_state
    (timer_handle_t.heap_hdl 0) [timer_op.op_schedule 10 1 false 7 8,
      timer_op.op_fd_ready 50] 0 hstale rfl⟩

/-- C5: on a stopped scheduler every `schedule` call, one-shot or recurring,
reports an error to the caller and changes nothing, and the stopped state is
permanent under every further operation sequence. -/
theorem C5_schedule_after_stop_fails (s : timer_epoll) (now d : Nat)
    (recurring : Bool) (c f : Nat) (ops : List timer_op)
    (h : s.m_stopped = true) :
    s.schedule now d recurring c f =
      (s, ⟨none, some sched_error.stopped_err, []⟩) ∧
    (timer_run s ops).m_stopped = true :=
  ⟨by simp [timer_epoll.schedule, h], stopped_run s ops h⟩

theorem C5_schedule_after_stop_fails_witness :
    ((timer_epoll.new false).stop).1.m_stopped = true ∧
    (((timer_epoll.new false).stop).1.schedule 3 9 true 1 2 =
        (((timer_epoll.new false).stop).1,
          ⟨none, some sched_error.stopped_err, []⟩) ∧
      (timer_run ((timer_epoll.new false).stop).1
        [timer_op.op_schedule 4 9 false 1 2, timer_op.op_fd_ready 9]).m_stopped =
        true) :=
  ⟨rfl, C5_schedule_after_stop_fails ((timer_epoll.new false).stop).1 3 9 true 1 2
    [timer_op.op_schedule 4 9 false 1 2, timer_op.op_fd_ready 9] rfl⟩

/-- C6: `stop()` invokes no callback while draining, and afterwards the
scheduler is stopped with an empty Deadline Queue, an empty recurring set and
a released shared descriptor, and no callback of this scheduler is ever
invoked by any further operation sequence. -/
theorem C6_stop_drains_everything (s : timer_epoll) (ops : List timer_op) :
    (s.stop).2.fired = [] ∧ sched_dead (s.stop).1 ∧
    timer_trace (s.stop).1 ops = [] := by
  refine ⟨rfl, ⟨rfl, rfl, rfl, rfl⟩, ?_⟩
  exact sched_dead_trace _ ops ⟨rfl, rfl, rfl, rfl⟩

theorem C6_stop_drains_everything_witness :
    ((stale_example_state.stop).2.fired = [] ∧
      sched_dead (stale_example_state.stop).1 ∧
      timer_trace (stale_example_state.stop).1
        [timer_op.op_fd_ready 99, timer_op.op_recurring_ready 0] = []) :=
  C6_stop_drains_everything stale_example_state
    [timer_op.op_fd_ready 99, timer_op.op_recurring_ready 0]

/-- C7 counterexample: the Deadline Queue does not break expiry ties by
insertion order. Entry `(0, …)` is inserted before entry `(1, …)`, both with
expiry 100; popping all due entries at time 100 may return the
later-inserted entry first (the heap orders only through `compare_timer`,
which cannot distinguish equal expiries, and `timer_heap_t` is declared
without a stability option), so "the entry inserted first is returned first"
is false. -/
theorem C7_tie_break_counterexample :
    pop_due_order 100
      [((0 : Nat), timer_info.mk 100 1 11 0), ((1 : Nat), timer_info.mk 100 2 22 0)]
      [((1 : Nat), timer_info.mk 100 2 22 0), ((0 : Nat), timer_info.mk 100 1 11 0)] ∧
    ¬ (∀ out, pop_due_order 100
        [((0 : Nat), timer_info.mk 100 1 11 0), ((1 : Nat), timer_info.mk 100 2 22 0)]
        out →
        out.head? = some ((0 : Nat), timer_info.mk 100 1 11 0)) := by
  have h1 : pop_due_order 100
      ([] ++ ((0 : Nat), timer_info.mk 100 1 11 0) :: [])
      [((0 : Nat), timer_info.mk 100 1 11 0)] :=
    pop_due_order.cons [] [] ((0 : Nat), timer_info.mk 100 1 11 0)
      (by decide) (by decide) (pop_due_order.nil (by decide))
  have h2 : pop_due_order 100
      ([((0 : Nat), timer_info.mk 100 1 11 0)] ++
        ((1 : Nat), timer_info.mk 100 2 22 0) :: [])
      [((1 : Nat), timer_info.mk 100 2 22 0), ((0 : Nat), timer_info.mk 100 1 11 0)] :=
    pop_due_order.cons [((0 : Nat), timer_info.mk 100 1 11 0)] []
      ((1 : Nat), timer_info.mk 100 2 22 0) (by decide) (by decide) h1
  refine ⟨h2, ?_⟩
  intro hall
  have hbad := hall _ h2
  simp at hbad

/-- C7 amended: entries with equal expiry are equivalent under
`compare_timer` (false in both argument orders), and the queue does not order
them further: both relative orders are admissible results of popping the due
entries, so the order among equal-expiry entries is unspecified rather than
insertion order. -/
theorem C7_equal_expiry_order_unspecified (now : Nat) (a b : heap_entry)
    (heq : entry_expiry a = entry_expiry b) (hdue : entry_expiry a ≤ now) :
    compare_timer a.2 b.2 = false ∧ compare_timer b.2 a.2 = false ∧
    pop_due_order now [a, b] [a, b] ∧ pop_due_order now [a, b] [b, a] := by
  have he : a.2.expiry_time = b.2.expiry_time := heq
  have hb : entry_expiry b ≤ now := by
    rw [← heq]
    exact hdue
  refine ⟨?_, ?_, ?_, ?_⟩
  · simp only [compare_timer, decide_eq_false_iff_not]
    omega
  · simp only [compare_timer, decide_eq_false_iff_not]
    omega
  · have hrec : pop_due_order now ([] ++ [b]) [b] :=
      pop_due_order.cons [] [] b hb
        (by intro x hx; simp at hx; rw [hx]) (pop_due_order.nil (by simp))
    exact pop_due_order.cons [] [b] a hdue
      (by
        intro x hx
        simp only [List.nil_append, List.mem_cons, List.mem_singleton] at hx
        rcases hx with hx | hx | hx
        · rw [hx]
        · rw [hx]
          unfold entry_expiry
          omega
        · cases hx)
      hrec
  · have hrec : pop_due_order now ([a] ++ []) [a] :=
      pop_due_order.cons [] [] a hdue
        (by intro x hx; simp at hx; rw [hx]) (pop_due_order.nil (by simp))
    exact pop_due_order.cons [a] [] b hb
      (by
        intro x hx
        simp only [List.cons_append, List.nil_append, List.mem_cons,
          List.mem_singleton] at hx
        rcases hx with hx | hx | hx
        · rw [hx]
          unfold entry_expiry
          omega
        · rw [hx]
        · cases hx)
      hrec

theorem C7_equal_expiry_order_unspecified_witness :
    entry_expiry ((0 : Nat), timer_info.mk 100 1 11 0) =
      entry_expiry ((1 : Nat), timer_info.mk 100 2 22 0) ∧
    entry_expiry ((0 : Nat), timer_info.mk 100 1 11 0) ≤ 100 ∧
    (compare_timer (timer_info.mk 100 1 11 0) (timer_info.mk 100 2 22 0) = false ∧
      compare_timer (timer_info.mk 100 2 22 0) (timer_info.mk 100 1 11 0) = false ∧
      pop_due_order 100
        [((0 : Nat), timer_info.mk 100 1 11 0), ((1 : Nat), timer_info.mk 100 2 22 0)]
        [((0 : Nat), timer_info.mk 100 1 11 0), ((1 : Nat), timer_info.mk 100 2 22 0)] ∧
      pop_due_order 100
        [((0 : Nat), timer_info.mk 100 1 11 0), ((1 : Nat), timer_info.mk 100 2 22 0)]
        [((1 : Nat), timer_info.mk 100 2 22 0), ((0 : Nat), timer_info.mk 100 1 11 0)]) :=
  ⟨rfl, by decide, C7_equal_expiry_order_unspecified 100
    ((0 : Nat), timer_info.mk 100 1 11 0) ((1 : Nat), timer_info.mk 100 2 22 0)
    rfl (by decide)⟩

/-- C8: a newly constructed scheduler is active with an empty Deadline Queue,
an empty recurring-descriptor set and no shared descriptor; the constructor
sets only the thread-local scope flag and `m_stopped` starts `false`. -/
theorem C8_new_scheduler_initial_state (b : Bool) :
    (timer_epoll.new b).m_is_thread_local = b ∧
    (timer_epoll.new b).m_stopped = false ∧
    (timer_epoll.new b).m_timer_list = [] ∧
    (timer_epoll.new b).m_common_timer_io_dev = none ∧
    (timer_epoll.new b).m_recurring_timer_iodevs = [] :=
  ⟨rfl, rfl, rfl, rfl, rfl⟩

/-- C9: the `schedule` interface types the delay as an unsigned 64-bit
integer (embedded as `Nat`), so every representable delay satisfies
`delay ≥ 0`, the negative-delay test is identically false, and the
invalid-argument rejection branch for negative delays is never taken. -/
theorem C9_negative_delay_unreachable (s : timer_epoll) (now d : Nat)
    (recurring : Bool) (c f : Nat) :
    negative_delay d = false ∧ 0 ≤ d ∧
    (s.schedule now d recurring c f).2.err ≠ some sched_error.invalid_arg := by
  refine ⟨negative_delay_eq_false d, Nat.zero_le d, ?_⟩
  by_cases hst : s.m_stopped
  · simp [timer_epoll.schedule, hst]
  · cases recurring <;>
      simp [timer_epoll.schedule, hst, negative_delay_eq_false]

theorem C9_negative_delay_unreachable_witness :
    negative_delay 7 = false ∧ 0 ≤ 7 ∧
    ((timer_epoll.new true).schedule 2 7 false 1 2).2.err ≠
      some sched_error.invalid_arg :=
  C9_negative_delay_unreachable (timer_epoll.new true) 2 7 false 1 2

/-- C10: `compare_timer` equals the reference ordering "first expiry strictly
greater than second": it is true exactly when the first entry's expiry
exceeds the second's, it depends only on the expiry fields (not callback,
context or parent), and on equal expiries it is false in both argument
orders, making such entries equivalent. -/
theorem C10_compare_timer_is_expiry_greater (ti1 ti2 : timer_info) :
    (compare_timer ti1 ti2 = true ↔ expiry_greater ti1 ti2) ∧
    (∀ c1 x1 p1 c2 x2 p2, compare_timer ⟨ti1.expiry_time, c1, x1, p1⟩
        ⟨ti2.expiry_time, c2, x2, p2⟩ = compare_timer ti1 ti2) ∧
    (ti1.expiry_time = ti2.expiry_time →
      compare_timer ti1 ti2 = false ∧ compare_timer ti2 ti1 = false) := by
  refine ⟨?_, ?_, ?_⟩
  · simp [compare_timer, expiry_greater]
  · intro c1 x1 p1 c2 x2 p2
    rfl
  · intro heq
    constructor <;>
      · simp only [compare_timer, decide_eq_false_iff_not]
        omega

theorem C10_compare_timer_is_expiry_greater_witness :
    (timer_info.mk 5 1 2 3).expiry_time = (timer_info.mk 5 9 8 7).expiry_time ∧
    (compare_timer (timer_info.mk 5 1 2 3) (timer_info.mk 5 9 8 7) = false ∧
      compare_timer (timer_info.mk 5 9 8 7) (timer_info.mk 5 1 2 3) = false) :=
  ⟨rfl, (C10_compare_timer_is_expiry_greater
    (timer_info.mk 5 1 2 3) (timer_info.mk 5 9 8 7)).2.2 rfl⟩

end Iomgr
